import Mathlib

/-!
# Verification of the sliding-window rate limiter

A shallow embedding of the `slidingwindow` Go package, together with proofs
of the testable properties stated in its specification.

Modelling conventions:

* Instants (`time.Time`) and durations (`time.Duration`) are both nanosecond
  counts, embedded as `ℤ` (Go stores both as 64-bit nanosecond values;
  no claim here depends on 64-bit wrap-around, so we use unbounded integers).
* `LocalWindow` stores `start` (UnixNano) and `count` (`int64`), embedded
  as the structure `Window` below.
* Go's integer (and `time.Duration`) division truncates toward zero; it is
  embedded as `Int.tdiv`.  `time.Time.Truncate(d)` rounds an instant down
  to a multiple of `d` (identity for `d ≤ 0`); rounding down is `Int.ediv`
  (Lean's `/` on `ℤ`), so `truncate t d = d * (t / d)`.
* `AllowN` computes `weight := float64(size-elapsed) / float64(size)` and
  `int64(weight * float64(prev.Count()))`.  Float64 arithmetic is idealized
  as exact rational arithmetic; Go's `int64(·)` conversion truncates toward
  zero, so the converted value is `trunc (((size-elapsed) * prevCount) / size)`
  over ℚ, which over ℤ is exactly `Int.tdiv ((size-elapsed) * prevCount) size`.
  The lemma `approxCount_eq_ratTrunc` below connects the two presentations.
-/

namespace SlidingWindow

/-- A fixed window (`LocalWindow` in `windows.go`): the start boundary of the
interval `[start, start+size)` as a UnixNano timestamp, and the accumulated
event count. -/
structure Window where
  start : ℤ
  count : ℤ
deriving DecidableEq

/-- The limiter (`slidingwindow.go`): window size, limit, and the
current/previous window pair. -/
structure Limiter where
  size : ℤ
  limit : ℤ
  curr : Window
  prev : Window
deriving DecidableEq

/-- `NewLimiter(size, limit, NewLocalWindow)`: both windows start as the
zero `LocalWindow` (start 0, count 0). -/
def newLimiter (size limit : ℤ) : Limiter :=
  { size := size, limit := limit, curr := ⟨0, 0⟩, prev := ⟨0, 0⟩ }

/-- Go's `time.Time.Truncate(d)`: round down to a multiple of `d`;
the identity when `d ≤ 0`. -/
def truncate (t d : ℤ) : ℤ :=
  if d ≤ 0 then t else d * (t / d)

/-- Go's `int64(x)` conversion of a float: truncation toward zero, on the
exact-rational idealization of float64.  (`q.num.tdiv q.den` truncates the
reduced fraction toward zero.) -/
def ratTrunc (q : ℚ) : ℤ :=
  q.num.tdiv (q.den : ℤ)

/-- The interpolation weight `float64(size-elapsed) / float64(size)`
from `Limiter.AllowN`, idealized over ℚ. -/
def weight (size elapsed : ℤ) : ℚ :=
  ((size - elapsed : ℤ) : ℚ) / ((size : ℤ) : ℚ)

/-- The interpolated count `int64(weight*float64(prev.Count())) + curr.Count()`
from `Limiter.AllowN`, computed over ℤ (see the module docstring). -/
def approxCount (size elapsed prevCount currCount : ℤ) : ℤ :=
  Int.tdiv ((size - elapsed) * prevCount) size + currCount

/-- `Limiter.advance` (`slidingwindow.go`): update the current/previous
windows resulting from the passage of time. -/
def Limiter.advance (lim : Limiter) (now : ℤ) : Limiter :=
  let newCurrStart := truncate now lim.size
  let diffSize := Int.tdiv (newCurrStart - lim.curr.start) lim.size
  if 1 ≤ diffSize then
    let newPrevCount : ℤ := if diffSize = 1 then lim.curr.count else 0
    { lim with
      prev := ⟨newCurrStart - lim.size, newPrevCount⟩
      curr := ⟨newCurrStart, 0⟩ }
  else
    lim

/-- `Limiter.AllowN` (`slidingwindow.go`): advance the windows, interpolate
the count, and admit (incrementing the current window by `n`) or reject.
Returns the decision together with the post-call limiter state. -/
def Limiter.allowN (lim : Limiter) (now n : ℤ) : Bool × Limiter :=
  let l := lim.advance now
  let elapsed := now - l.curr.start
  let count := approxCount l.size elapsed l.prev.count l.curr.count
  if l.limit < count + n then
    (false, l)
  else
    (true, { l with curr := ⟨l.curr.start, l.curr.count + n⟩ })

/-- The interpolation weight as computed inside `AllowN` after the rollover
step: `elapsed` is measured from the post-`advance` current window. -/
def Limiter.allowWeight (lim : Limiter) (now : ℤ) : ℚ :=
  weight (lim.advance now).size (now - (lim.advance now).curr.start)

/-- Run a sequence of `AllowN` calls, returning the list of decisions. -/
def Limiter.allowList (lim : Limiter) : List (ℤ × ℤ) → List Bool
  | [] => []
  | (t, n) :: rest =>
    let r := lim.allowN t n
    r.1 :: r.2.allowList rest

/-- Run a sequence of `AllowN` calls, returning the final limiter state. -/
def Limiter.runAllowN (lim : Limiter) : List (ℤ × ℤ) → Limiter
  | [] => lim
  | (t, n) :: rest => ((lim.allowN t n).2).runAllowN rest

/-- Translate a limiter's window pair `δ` nanoseconds into the future
(used to relate runs that differ only in the initial window boundary). -/
def Limiter.shift (lim : Limiter) (δ : ℤ) : Limiter :=
  { lim with
    curr := ⟨lim.curr.start + δ, lim.curr.count⟩
    prev := ⟨lim.prev.start + δ, lim.prev.count⟩ }

/-- A call against the central `Datastore` interface (`synchronizer.go`):
`Add(key, start, delta)` or `Get(key, start)`. -/
inductive DsCall where
  | add : String → ℤ → ℤ → DsCall
  | get : String → ℤ → DsCall
deriving DecidableEq

/-- `SyncRequest` (`window.go`): the window snapshot sent to the datastore. -/
structure SyncRequest where
  key : String
  start : ℤ
  count : ℤ
  changes : ℤ
deriving DecidableEq

/-- `SyncResponse` (`window.go`).  `ok` is Go's `OK`. -/
structure SyncResponse where
  ok : Bool
  start : ℤ
  changes : ℤ
  otherChanges : ℤ
deriving DecidableEq

/-- The Go zero value `SyncResponse{}` returned by `syncHelper.Sync` on a
datastore error. -/
def emptySyncResponse : SyncResponse :=
  ⟨false, 0, 0, 0⟩

/-- `syncHelper.Sync` (`synchronizer.go`).  The external datastore is a
collaborator specified only at its interface, so it is embedded as an
evaluator for `DsCall`s returning the new total, or `none` on error. -/
def syncHelperSync (store : DsCall → Option ℤ) (req : SyncRequest) : SyncResponse :=
  let call := if 0 < req.changes then DsCall.add req.key req.start req.changes
              else DsCall.get req.key req.start
  match store call with
  | none => emptySyncResponse
  | some newCount => ⟨true, req.start, req.changes, newCount - req.count⟩

/-- The mutable core of `SyncWindow` (`window.go`): the embedded
`LocalWindow`'s `start` and `count`, plus the pending `changes`. -/
structure SyncWindowState where
  start : ℤ
  count : ℤ
  changes : ℤ
deriving DecidableEq

/-- `SyncWindow.handleSyncResponse` (`window.go`): apply a response only when
it succeeded and the window was not reset during the in-flight exchange. -/
def handleSyncResponse (w : SyncWindowState) (resp : SyncResponse) : SyncWindowState :=
  if resp.ok = true ∧ resp.start = w.start then
    { w with count := w.count + resp.otherChanges, changes := w.changes - resp.changes }
  else
    w

/-- The state invariant maintained by a Limiter over Local windows: the
limit and both counts are non-negative, the current count never exceeds the
limit, and the current start sits on the window grid. -/
def Limiter.Inv (lim : Limiter) : Prop :=
  0 ≤ lim.limit ∧ 0 ≤ lim.curr.count ∧ lim.curr.count ≤ lim.limit ∧
  0 ≤ lim.prev.count ∧ lim.size ∣ lim.curr.start

/-- The limiter state reached after the very first rollover of the
single-process scenario, with the window boundary translated back to 0
(the previous window then sits at `[-10^9, 0)` with count 0). -/
def scenarioBase : Limiter :=
  ⟨10^9, 10, ⟨0, 0⟩, ⟨-(10^9), 0⟩⟩

/-- The single-process scenario's calls, as offsets (ns) from the window
boundary: `n` events at `t0 + offset` for each pair `(offset, n)`. -/
def scenarioOffsets : List (ℤ × ℤ) :=
  [(0, 1), (10^8, 2), (2 * 10^8, 3), (5 * 10^8, 5),
   (10 * 10^8, 2), (12 * 10^8, 5), (15 * 10^8, 5)]

/-! ## Arithmetic facts about `truncate` and `Int.tdiv` -/

theorem truncate_of_dvd {t d : ℤ} (hd : 0 < d) (h : d ∣ t) : truncate t d = t := by
  rw [truncate, if_neg (not_le.2 hd), Int.mul_ediv_cancel' h]

theorem truncate_le {t d : ℤ} (hd : 0 < d) : truncate t d ≤ t := by
  rw [truncate, if_neg (not_le.2 hd)]
  have h1 : 0 ≤ t % d := Int.emod_nonneg t hd.ne'
  have h2 : t % d = t - d * (t / d) := Int.emod_def t d
  omega

theorem lt_truncate_add (t : ℤ) {d : ℤ} (hd : 0 < d) : t < truncate t d + d := by
  rw [truncate, if_neg (not_le.2 hd)]
  have h1 : t % d < d := Int.emod_lt_of_pos t hd
  have h2 : t % d = t - d * (t / d) := Int.emod_def t d
  omega

theorem dvd_truncate {t d : ℤ} (hd : 0 < d) : d ∣ truncate t d := by
  rw [truncate, if_neg (not_le.2 hd)]
  exact Dvd.intro _ rfl

theorem truncate_add_dvd {t δ d : ℤ} (h : d ∣ δ) : truncate (t + δ) d = truncate t d + δ := by
  rcases le_or_lt d 0 with hd | hd
  · rw [truncate, truncate, if_pos hd, if_pos hd]
  · obtain ⟨k, rfl⟩ := h
    rw [truncate, truncate, if_neg (not_le.2 hd), if_neg (not_le.2 hd),
      Int.add_mul_ediv_left t k hd.ne']
    ring

theorem truncate_add_small {t d r : ℤ} (hd : 0 < d) (h : d ∣ t) (h0 : 0 ≤ r) (hr : r < d) :
    truncate (t + r) d = t := by
  rw [add_comm, truncate_add_dvd h, truncate, if_neg (not_le.2 hd),
    Int.ediv_eq_zero_of_lt h0 hr, mul_zero, zero_add]

theorem ratTrunc_eq_floor {q : ℚ} (h : 0 ≤ q) : ratTrunc q = ⌊q⌋ := by
  rw [ratTrunc, Rat.floor_def, Int.tdiv_eq_ediv (Rat.num_nonneg.2 h) (Int.natCast_nonneg _)]

theorem ratTrunc_neg (q : ℚ) : ratTrunc (-q) = -ratTrunc q := by
  rw [ratTrunc, ratTrunc, Rat.num_neg_eq_neg_num, Rat.den_neg_eq_den, Int.neg_tdiv]

theorem ratTrunc_intCast_div {x s : ℤ} (hs : 0 < s) :
    ratTrunc ((x : ℚ) / (s : ℚ)) = x.tdiv s := by
  have hsq : (0:ℚ) < (s : ℚ) := by exact_mod_cast hs
  have hcast : ((s.toNat : ℕ) : ℚ) = (s : ℚ) := by
    rw [← Int.cast_natCast, Int.toNat_of_nonneg hs.le]
  rcases le_or_lt 0 x with hx | hx
  · rw [ratTrunc_eq_floor (by positivity)]
    rw [← hcast, Rat.floor_intCast_div_natCast, Int.toNat_of_nonneg hs.le,
      Int.tdiv_eq_ediv hx hs.le]
  · have hq : ((x:ℚ)/(s:ℚ)) = -(((-x : ℤ):ℚ)/(s:ℚ)) := by push_cast; ring
    have hxn : (0:ℚ) ≤ ((-x : ℤ):ℚ) := by exact_mod_cast (by omega : (0:ℤ) ≤ -x)
    rw [hq, ratTrunc_neg, ratTrunc_eq_floor (div_nonneg hxn hsq.le)]
    rw [← hcast, Rat.floor_intCast_div_natCast, Int.toNat_of_nonneg hs.le]
    have h2 : x.tdiv s = -((-x).tdiv s) := by rw [Int.neg_tdiv]; ring
    rw [h2, Int.tdiv_eq_ediv (by omega) hs.le]

/-- The ℤ-level interpolated count agrees with the spec's rational formula
`trunc(weight × P) + C`: the float-free `Int.tdiv` form used in `allowN`
is exactly Go's `int64(weight*float64(P)) + C` under exact arithmetic. -/
theorem approxCount_eq_ratTrunc (size elapsed P C : ℤ) (hs : 0 < size) :
    approxCount size elapsed P C = ratTrunc (weight size elapsed * (P : ℚ)) + C := by
  rw [approxCount, weight]
  have h : ((size - elapsed : ℤ) : ℚ) / ((size : ℤ) : ℚ) * (P:ℚ)
      = (((size - elapsed) * P : ℤ) : ℚ) / ((size : ℤ):ℚ) := by push_cast; ring
  rw [h, ratTrunc_intCast_div hs]

theorem le_tdiv_iff (x : ℤ) {s : ℤ} (k : ℤ) (hs : 0 < s) (hk : 1 ≤ k) :
    k ≤ Int.tdiv x s ↔ k * s ≤ x := by
  rcases le_or_lt 0 x with hx | hx
  · rw [Int.tdiv_eq_ediv hx hs.le]
    exact Int.le_ediv_iff_mul_le hs
  · have hks : 0 < k * s := mul_pos (by omega) hs
    have h2 : Int.tdiv x s ≤ 0 := by
      have h3 := Int.tdiv_nonneg (show (0:ℤ) ≤ -x by omega) hs.le
      rw [Int.neg_tdiv] at h3
      omega
    constructor
    · intro h
      omega
    · intro h
      omega

theorem tdiv_eq_one_iff {x s : ℤ} (hs : 0 < s) : Int.tdiv x s = 1 ↔ s ≤ x ∧ x < 2 * s := by
  have h1 := le_tdiv_iff x 1 hs le_rfl
  have h2 := le_tdiv_iff x 2 hs (by omega)
  rw [one_mul] at h1
  constructor
  · intro h
    refine ⟨h1.1 (by omega), ?_⟩
    by_contra hc
    have := h2.2 (by omega)
    omega
  · intro ⟨ha, hb⟩
    have h3 := h1.2 ha
    have h4 : ¬ (2 ≤ Int.tdiv x s) := fun hc => by have := h2.1 hc; omega
    omega

/-! ## Basic properties of `advance` -/

theorem advance_eq_self (lim : Limiter) (now : ℤ) (hs : 0 < lim.size)
    (h : truncate now lim.size < lim.curr.start + lim.size) :
    lim.advance now = lim := by
  rw [Limiter.advance, if_neg]
  intro hge
  rw [le_tdiv_iff _ _ hs le_rfl, one_mul] at hge
  omega

theorem advance_eq_roll (lim : Limiter) (now : ℤ) (hs : 0 < lim.size)
    (h : lim.curr.start + lim.size ≤ truncate now lim.size) :
    lim.advance now =
      { lim with
        prev := ⟨truncate now lim.size - lim.size,
          if truncate now lim.size < lim.curr.start + 2 * lim.size then lim.curr.count else 0⟩
        curr := ⟨truncate now lim.size, 0⟩ } := by
  rw [Limiter.advance, if_pos]
  · rcases le_or_lt (lim.curr.start + 2 * lim.size) (truncate now lim.size) with hfar | hnear
    · rw [if_neg, if_neg (not_lt.2 hfar)]
      rw [tdiv_eq_one_iff hs]
      omega
    · rw [if_pos, if_pos hnear]
      rw [tdiv_eq_one_iff hs]
      omega
  · rw [le_tdiv_iff _ _ hs le_rfl, one_mul]
    omega

theorem advance_size (lim : Limiter) (now : ℤ) : (lim.advance now).size = lim.size := by
  rw [Limiter.advance]
  split <;> rfl

theorem advance_limit (lim : Limiter) (now : ℤ) : (lim.advance now).limit = lim.limit := by
  rw [Limiter.advance]
  split <;> rfl

theorem allowN_size (lim : Limiter) (now n : ℤ) : ((lim.allowN now n).2).size = lim.size := by
  rw [Limiter.allowN]
  split <;> simp [advance_size]

theorem allowN_limit (lim : Limiter) (now n : ℤ) : ((lim.allowN now n).2).limit = lim.limit := by
  rw [Limiter.allowN]
  split <;> simp [advance_limit]

theorem advance_idem (lim : Limiter) (now : ℤ) :
    (lim.advance now).advance now = lim.advance now := by
  by_cases h : 1 ≤ Int.tdiv (truncate now lim.size - lim.curr.start) lim.size
  · have hroll : lim.advance now =
        { lim with
          prev := ⟨truncate now lim.size - lim.size,
            if Int.tdiv (truncate now lim.size - lim.curr.start) lim.size = 1
            then lim.curr.count else 0⟩
          curr := ⟨truncate now lim.size, 0⟩ } := by
      rw [Limiter.advance, if_pos h]
    rw [hroll, Limiter.advance]
    simp only [sub_self, Int.zero_tdiv]
    rw [if_neg (by omega)]
  · have hself : lim.advance now = lim := by
      rw [Limiter.advance, if_neg h]
    rw [hself, hself]

theorem allowN_advance (lim : Limiter) (now n : ℤ) :
    (lim.advance now).allowN now n = lim.allowN now n := by
  rw [Limiter.allowN, Limiter.allowN, advance_idem]

/-! ## Shift invariance: runs differing only by a translation of the
window grid by a multiple of the size behave identically. -/

theorem shift_size (lim : Limiter) (δ : ℤ) : (lim.shift δ).size = lim.size := rfl

theorem advance_shift (lim : Limiter) (now δ : ℤ) (h : lim.size ∣ δ) :
    (lim.shift δ).advance (now + δ) = (lim.advance now).shift δ := by
  have hsz : (lim.shift δ).size = lim.size := rfl
  have hli : (lim.shift δ).limit = lim.limit := rfl
  have hcs : (lim.shift δ).curr.start = lim.curr.start + δ := rfl
  have hcc : (lim.shift δ).curr.count = lim.curr.count := rfl
  rw [Limiter.advance, Limiter.advance, hsz, hli, hcs, hcc, truncate_add_dvd h]
  have harg : truncate now lim.size + δ - (lim.curr.start + δ)
      = truncate now lim.size - lim.curr.start := by ring
  rw [harg]
  by_cases hc : 1 ≤ Int.tdiv (truncate now lim.size - lim.curr.start) lim.size
  · rw [if_pos hc, if_pos hc]
    simp only [Limiter.shift, Limiter.mk.injEq, Window.mk.injEq, and_true, true_and]
    omega
  · rw [if_neg hc, if_neg hc]

theorem allowN_shift (lim : Limiter) (now n δ : ℤ) (h : lim.size ∣ δ) :
    (lim.shift δ).allowN (now + δ) n
      = ((lim.allowN now n).1, ((lim.allowN now n).2).shift δ) := by
  rw [Limiter.allowN, Limiter.allowN, advance_shift lim now δ h]
  have hsz : ((lim.advance now).shift δ).size = (lim.advance now).size := rfl
  have hlim : ((lim.advance now).shift δ).limit = (lim.advance now).limit := rfl
  have hpc : ((lim.advance now).shift δ).prev.count = (lim.advance now).prev.count := rfl
  have hcc : ((lim.advance now).shift δ).curr.count = (lim.advance now).curr.count := rfl
  have hcs : ((lim.advance now).shift δ).curr.start = (lim.advance now).curr.start + δ := rfl
  rw [hsz, hlim, hpc, hcc, hcs]
  have he : now + δ - ((lim.advance now).curr.start + δ) = now - (lim.advance now).curr.start := by
    ring
  rw [he]
  split
  · rfl
  · simp [Limiter.shift]

theorem allowList_shift (lim : Limiter) (calls : List (ℤ × ℤ)) (δ : ℤ) (h : lim.size ∣ δ) :
    (lim.shift δ).allowList (calls.map (fun p => (p.1 + δ, p.2)))
      = lim.allowList calls := by
  induction calls generalizing lim with
  | nil => rfl
  | cons c rest ih =>
    obtain ⟨t, n⟩ := c
    rw [List.map_cons, Limiter.allowList, Limiter.allowList, allowN_shift lim t n δ h]
    have hrest := ih ((lim.allowN t n).2) (by rw [allowN_size]; exact h)
    simp only [hrest]

/-- After `advance`, the current window's start is at most `now`, provided it
already was (rollover can only move the start toward `now`). -/
theorem advance_start_le {lim : Limiter} {now : ℤ} (hs : 0 < lim.size)
    (hnow : lim.curr.start ≤ now) : (lim.advance now).curr.start ≤ now := by
  rcases le_or_lt (lim.curr.start + lim.size) (truncate now lim.size) with hroll | hself
  · rw [advance_eq_roll _ _ hs hroll]
    exact truncate_le hs
  · rw [advance_eq_self _ _ hs hself]
    exact hnow

/-- After `advance`, `now` lies strictly within one window size of the current
window's start, provided the start sits on the window grid. -/
theorem advance_elapsed_lt {lim : Limiter} {now : ℤ} (hs : 0 < lim.size)
    (hdvd : lim.size ∣ lim.curr.start) :
    now - (lim.advance now).curr.start < lim.size := by
  rcases le_or_lt (lim.curr.start + lim.size) (truncate now lim.size) with hroll | hself
  · rw [advance_eq_roll _ _ hs hroll]
    show now - truncate now lim.size < lim.size
    have := lt_truncate_add now hs
    omega
  · rw [advance_eq_self _ _ hs hself]
    by_contra hc
    push_neg at hc
    obtain ⟨m, hm⟩ := hdvd
    have h1 : m + 1 ≤ now / lim.size := by
      rw [Int.le_ediv_iff_mul_le hs]
      nlinarith
    have h2 : truncate now lim.size = lim.size * (now / lim.size) := by
      rw [truncate, if_neg (not_le.2 hs)]
    nlinarith

theorem allowList_congr_head (lim lim' : Limiter) (t n : ℤ) (rest : List (ℤ × ℤ))
    (h : lim.allowN t n = lim'.allowN t n) :
    lim.allowList ((t, n) :: rest) = lim'.allowList ((t, n) :: rest) := by
  rw [Limiter.allowList, Limiter.allowList, h]

/-! ## Claim theorems -/

/-- C2 (rollover contiguity): whenever `now` falls in the window immediately
following the current one — `floor(now/size)*size = current.start + size` —
`advance(now)` makes the previous window inherit the old current count, and
the window pair is contiguous: `previous.start + size = current.start`. -/
theorem rollover_contiguity (lim : Limiter) (now : ℤ) (hs : 0 < lim.size)
    (h : truncate now lim.size = lim.curr.start + lim.size) :
    (lim.advance now).prev.count = lim.curr.count ∧
    (lim.advance now).prev.start + lim.size = (lim.advance now).curr.start := by
  rw [advance_eq_roll _ _ hs (by omega)]
  refine ⟨?_, ?_⟩
  · show (if truncate now lim.size < lim.curr.start + 2 * lim.size
          then lim.curr.count else 0) = lim.curr.count
    rw [if_pos (by omega)]
  · show truncate now lim.size - lim.size + lim.size = truncate now lim.size
    ring

/-- Witness for C2 at a concrete input. -/
theorem rollover_contiguity_w :
    (((⟨10, 5, ⟨10, 3⟩, ⟨0, 7⟩⟩ : Limiter)).advance 25).prev.count
        = (⟨10, 5, ⟨10, 3⟩, ⟨0, 7⟩⟩ : Limiter).curr.count ∧
    (((⟨10, 5, ⟨10, 3⟩, ⟨0, 7⟩⟩ : Limiter)).advance 25).prev.start
        + (⟨10, 5, ⟨10, 3⟩, ⟨0, 7⟩⟩ : Limiter).size
      = (((⟨10, 5, ⟨10, 3⟩, ⟨0, 7⟩⟩ : Limiter)).advance 25).curr.start :=
  rollover_contiguity ⟨10, 5, ⟨10, 3⟩, ⟨0, 7⟩⟩ 25 (by norm_num) (by decide)

/-- C3 (rollover discontinuity): whenever the expected current-window start
`floor(now/size)*size` is at least two window sizes past `current.start`,
`advance(now)` zeroes the previous window's count and resets the current
window to `{start = floor(now/size)*size, count = 0}`. -/
theorem rollover_discontinuity (lim : Limiter) (now : ℤ) (hs : 0 < lim.size)
    (h : lim.curr.start + 2 * lim.size ≤ truncate now lim.size) :
    (lim.advance now).prev.count = 0 ∧
    (lim.advance now).curr = ⟨truncate now lim.size, 0⟩ := by
  rw [advance_eq_roll _ _ hs (by omega)]
  refine ⟨?_, rfl⟩
  show (if truncate now lim.size < lim.curr.start + 2 * lim.size
        then lim.curr.count else 0) = 0
  rw [if_neg (by omega)]

/-- Witness for C3 at a concrete input. -/
theorem rollover_discontinuity_w :
    (((⟨10, 5, ⟨10, 3⟩, ⟨0, 7⟩⟩ : Limiter)).advance 47).prev.count = 0 ∧
    (((⟨10, 5, ⟨10, 3⟩, ⟨0, 7⟩⟩ : Limiter)).advance 47).curr
      = ⟨truncate 47 (⟨10, 5, ⟨10, 3⟩, ⟨0, 7⟩⟩ : Limiter).size, 0⟩ :=
  rollover_discontinuity ⟨10, 5, ⟨10, 3⟩, ⟨0, 7⟩⟩ 47 (by norm_num) (by decide)

/-- C5 (interpolation bound): for a non-negative previous count `P`, any
current count `C`, and elapsed values `0 ≤ e1 ≤ e2 < size`, the interpolated
count is monotonically non-increasing in the elapsed time. -/
theorem approxCount_antitone {size e1 e2 P C : ℤ} (hP : 0 ≤ P)
    (h0 : 0 ≤ e1) (h12 : e1 ≤ e2) (h2 : e2 < size) :
    approxCount size e2 P C ≤ approxCount size e1 P C := by
  unfold approxCount
  have hs : 0 < size := by omega
  have hnum : (size - e2) * P ≤ (size - e1) * P :=
    mul_le_mul_of_nonneg_right (by omega) hP
  have ha : 0 ≤ (size - e2) * P := mul_nonneg (by omega) hP
  have hb : 0 ≤ (size - e1) * P := mul_nonneg (by omega) hP
  rw [Int.tdiv_eq_ediv ha hs.le, Int.tdiv_eq_ediv hb hs.le]
  have hdiv := Int.ediv_le_ediv hs hnum
  omega

/-- Witness for C5 at a concrete input. -/
theorem approxCount_antitone_w :
    approxCount 10 5 6 1 ≤ approxCount 10 2 6 1 :=
  approxCount_antitone (by norm_num) (by norm_num) (by norm_num) (by norm_num)

/-- C6 (admission monotonicity): if `AllowN(t, n)` on a given state is
rejected, then `AllowN(t, m)` for `m > n` on the same state at the same
instant is also rejected. -/
theorem allowN_monotone (lim : Limiter) (now n m : ℤ)
    (h : (lim.allowN now n).1 = false) (hnm : n < m) :
    (lim.allowN now m).1 = false := by
  simp only [Limiter.allowN] at h ⊢
  split at h
  case isTrue hc =>
    rw [if_pos (by omega)]
  case isFalse hc =>
    simp at h

/-- Witness for C6 at a concrete input. -/
theorem allowN_monotone_w :
    ((newLimiter (10^9) 0).allowN 0 2).1 = false :=
  allowN_monotone (newLimiter (10^9) 0) 0 1 2 (by decide) (by norm_num)

/-- C7 (decision step of `AllowN`): relative to the state produced by the
mandatory rollover step (`advance` always runs first inside `AllowN`), if the
interpolated count plus `n` exceeds the limit then `AllowN` returns `false`
and leaves that state untouched; otherwise it returns `true` and increments
only the current window's count by `n`, leaving the previous window and both
start boundaries unchanged. -/
theorem allowN_decide_step (lim : Limiter) (now n : ℤ) :
    (lim.limit < approxCount (lim.advance now).size (now - (lim.advance now).curr.start)
        (lim.advance now).prev.count (lim.advance now).curr.count + n →
      lim.allowN now n = (false, lim.advance now)) ∧
    (approxCount (lim.advance now).size (now - (lim.advance now).curr.start)
        (lim.advance now).prev.count (lim.advance now).curr.count + n ≤ lim.limit →
      lim.allowN now n =
        (true, { lim.advance now with
                 curr := ⟨(lim.advance now).curr.start, (lim.advance now).curr.count + n⟩ })) := by
  have hl : (lim.advance now).limit = lim.limit := advance_limit lim now
  constructor
  · intro h
    simp only [Limiter.allowN]
    rw [if_pos (by rw [hl]; exact h)]
  · intro h
    simp only [Limiter.allowN]
    rw [if_neg (by rw [hl]; omega)]

/-- Witness for C7 at a concrete input (rejection branch). -/
theorem allowN_decide_step_w :
    (newLimiter (10^9) 0).allowN 0 1 = (false, (newLimiter (10^9) 0).advance 0) :=
  (allowN_decide_step (newLimiter (10^9) 0) 0 1).1 (by decide)

/-- C8 (exchange step): `syncHelper.Sync` calls `Datastore.Add(key, start,
changes)` when `changes > 0` and `Datastore.Get(key, start)` when
`changes ≤ 0`; on success it returns `{OK = true, start = req.start,
changes = req.changes, otherChanges = newTotal - req.count}`, and on a
datastore error it returns the zero response (`OK = false`, no counts). -/
theorem syncHelperSync_spec (store : DsCall → Option ℤ) (req : SyncRequest) :
    (0 < req.changes →
      syncHelperSync store req =
        match store (DsCall.add req.key req.start req.changes) with
        | some newTotal => ⟨true, req.start, req.changes, newTotal - req.count⟩
        | none => emptySyncResponse) ∧
    (req.changes ≤ 0 →
      syncHelperSync store req =
        match store (DsCall.get req.key req.start) with
        | some newTotal => ⟨true, req.start, req.changes, newTotal - req.count⟩
        | none => emptySyncResponse) := by
  constructor
  · intro h
    rw [syncHelperSync, if_pos h]
    cases store (DsCall.add req.key req.start req.changes) <;> rfl
  · intro h
    rw [syncHelperSync, if_neg (not_lt.2 h)]
    cases store (DsCall.get req.key req.start) <;> rfl

/-- Witness for C8 at a concrete input (`changes > 0`, successful `Add`). -/
theorem syncHelperSync_spec_w :
    syncHelperSync (fun c => match c with
      | DsCall.add _ _ d => some (d + 40)
      | DsCall.get _ _ => some 7) ⟨"k", 5, 3, 2⟩ = ⟨true, 5, 2, 39⟩ := by
  rw [(syncHelperSync_spec (fun c => match c with
      | DsCall.add _ _ d => some (d + 40)
      | DsCall.get _ _ => some 7) ⟨"k", 5, 3, 2⟩).1 (by norm_num)]
  rfl

/-- C9 (stale or failed responses leave the window unchanged):
`SyncWindow.handleSyncResponse` applies `count += otherChanges` and
`changes -= changes` exactly when the response succeeded and its `start`
still matches the window's `start`; in every other case the window's
`start`, `count` and pending `changes` are all unchanged. -/
theorem handleSyncResponse_spec (w : SyncWindowState) (resp : SyncResponse) :
    ((resp.ok = true ∧ resp.start = w.start) →
      handleSyncResponse w resp
        = ⟨w.start, w.count + resp.otherChanges, w.changes - resp.changes⟩) ∧
    (¬(resp.ok = true ∧ resp.start = w.start) →
      handleSyncResponse w resp = w) := by
  constructor
  · intro h
    rw [handleSyncResponse, if_pos h]
  · intro h
    rw [handleSyncResponse, if_neg h]

/-- Witness for C9 at a concrete input (stale response dropped). -/
theorem handleSyncResponse_spec_w :
    handleSyncResponse ⟨100, 4, 2⟩ ⟨true, 90, 2, 3⟩ = ⟨100, 4, 2⟩ :=
  (handleSyncResponse_spec ⟨100, 4, 2⟩ ⟨true, 90, 2, 3⟩).2 (by decide)

/-- C4 is false as stated: on the fresh limiter at `now = 0` — which is at
(in fact exactly on) the post-rollover current window's start — the
interpolation weight equals `1`, which is not in `[0, 1)`. -/
theorem allowWeight_not_lt_one :
    ((newLimiter (10^9) 10).advance 0).curr.start ≤ 0 ∧
    ¬((newLimiter (10^9) 10).allowWeight 0 < 1) := by
  have hadv : (newLimiter (10^9) 10).advance 0 = newLimiter (10^9) 10 := by decide
  constructor
  · rw [hadv]
    norm_num [newLimiter]
  · rw [Limiter.allowWeight, hadv]
    norm_num [weight, newLimiter]

/-- C4 as amended: in every `AllowN(now, n)` call, after the rollover step
has run, the interpolation weight `(size - elapsed) / size` lies in `(0, 1]`
(it equals `1` exactly at the window boundary), for every `now` at or after
the current window's start, provided the start sits on the window grid. -/
theorem allowWeight_pos_le_one (lim : Limiter) (now : ℤ) (hs : 0 < lim.size)
    (hdvd : lim.size ∣ lim.curr.start) (hnow : lim.curr.start ≤ now) :
    0 < lim.allowWeight now ∧ lim.allowWeight now ≤ 1 := by
  rw [Limiter.allowWeight, advance_size]
  have h1 : now - (lim.advance now).curr.start < lim.size := advance_elapsed_lt hs hdvd
  have h2 : 0 ≤ now - (lim.advance now).curr.start := by
    have := advance_start_le hs hnow
    omega
  rw [weight]
  constructor
  · apply div_pos
    · exact_mod_cast (by omega : (0:ℤ) < lim.size - (now - (lim.advance now).curr.start))
    · exact_mod_cast hs
  · rw [div_le_one (by exact_mod_cast hs)]
    exact_mod_cast (by omega : lim.size - (now - (lim.advance now).curr.start) ≤ lim.size)

/-- Witness for the amended C4 at a concrete input. -/
theorem allowWeight_pos_le_one_w :
    0 < (newLimiter (10^9) 10).allowWeight (5 * 10^8) ∧
    (newLimiter (10^9) 10).allowWeight (5 * 10^8) ≤ 1 :=
  allowWeight_pos_le_one (newLimiter (10^9) 10) (5 * 10^8)
    (by norm_num [newLimiter]) (by simp [newLimiter]) (by norm_num [newLimiter])

/-- `advance` preserves the limiter invariant. -/
theorem advance_inv {lim : Limiter} {now : ℤ} (hs : 0 < lim.size) (h : lim.Inv) :
    (lim.advance now).Inv := by
  obtain ⟨hl, hc0, hcl, hp0, hdvd⟩ := h
  rcases le_or_lt (lim.curr.start + lim.size) (truncate now lim.size) with hroll | hself
  · rw [advance_eq_roll _ _ hs hroll]
    refine ⟨hl, le_rfl, hl, ?_, ?_⟩
    · show (0:ℤ) ≤ if truncate now lim.size < lim.curr.start + 2 * lim.size
                   then lim.curr.count else 0
      split
      · exact hc0
      · exact le_rfl
    · exact dvd_truncate hs
  · rw [advance_eq_self _ _ hs hself]
    exact ⟨hl, hc0, hcl, hp0, hdvd⟩

/-- `AllowN` preserves the limiter invariant when `n ≥ 0`: on admission the
interpolated count over-approximates the current count, so the incremented
current count stays within the limit. -/
theorem allowN_inv {lim : Limiter} {now n : ℤ} (hs : 0 < lim.size) (h : lim.Inv)
    (hn : 0 ≤ n) : ((lim.allowN now n).2).Inv := by
  have hgrid : lim.size ∣ lim.curr.start := h.2.2.2.2
  have hadv : (lim.advance now).Inv := advance_inv hs h
  obtain ⟨hl, hc0, hcl, hp0, hdvd⟩ := hadv
  have hsz : (lim.advance now).size = lim.size := advance_size lim now
  simp only [Limiter.allowN]
  split
  · exact ⟨hl, hc0, hcl, hp0, hdvd⟩
  case isFalse hc =>
    push_neg at hc
    rw [approxCount] at hc
    have he : now - (lim.advance now).curr.start < lim.size := advance_elapsed_lt hs hgrid
    have htd : 0 ≤ Int.tdiv
        (((lim.advance now).size - (now - (lim.advance now).curr.start))
          * (lim.advance now).prev.count) (lim.advance now).size := by
      rw [hsz]
      exact Int.tdiv_nonneg (mul_nonneg (by omega) hp0) hs.le
    have hlimit : (lim.advance now).limit = lim.limit := advance_limit lim now
    refine ⟨hl, ?_, ?_, hp0, hdvd⟩
    · show (0:ℤ) ≤ (lim.advance now).curr.count + n
      omega
    · show (lim.advance now).curr.count + n ≤ (lim.advance now).limit
      omega

theorem runAllowN_size (lim : Limiter) (calls : List (ℤ × ℤ)) :
    (lim.runAllowN calls).size = lim.size := by
  induction calls generalizing lim with
  | nil => rfl
  | cons c rest ih =>
    obtain ⟨t, n⟩ := c
    rw [Limiter.runAllowN, ih]
    exact allowN_size lim t n

theorem runAllowN_limit (lim : Limiter) (calls : List (ℤ × ℤ)) :
    (lim.runAllowN calls).limit = lim.limit := by
  induction calls generalizing lim with
  | nil => rfl
  | cons c rest ih =>
    obtain ⟨t, n⟩ := c
    rw [Limiter.runAllowN, ih]
    exact allowN_limit lim t n

/-- The invariant holds after an arbitrary sequence of `AllowN` calls with
non-negative counts. -/
theorem runAllowN_inv {lim : Limiter} {calls : List (ℤ × ℤ)} (hs : 0 < lim.size)
    (h : lim.Inv) (hn : ∀ p ∈ calls, 0 ≤ p.2) : (lim.runAllowN calls).Inv := by
  induction calls generalizing lim with
  | nil => exact h
  | cons c rest ih =>
    obtain ⟨t, n⟩ := c
    rw [Limiter.runAllowN]
    refine ih ?_ ?_ ?_
    · rw [allowN_size]
      exact hs
    · exact allowN_inv hs h (hn (t, n) (by simp))
    · intro p hp
      exact hn p (by simp [hp])

/-- C10 (implicit invariant): for a Limiter over Local windows with a fixed
limit `L ≥ 0` (and positive window size — Go panics on a zero size), after
any sequence of `AllowN` calls with `n ≥ 0` starting from the freshly
constructed state, both windows' counts are non-negative and the current
window's count never exceeds `L`. -/
theorem local_counts_bounded (size L : ℤ) (calls : List (ℤ × ℤ))
    (hs : 0 < size) (hL : 0 ≤ L) (hn : ∀ p ∈ calls, 0 ≤ p.2) :
    0 ≤ ((newLimiter size L).runAllowN calls).curr.count ∧
    ((newLimiter size L).runAllowN calls).curr.count ≤ L ∧
    0 ≤ ((newLimiter size L).runAllowN calls).prev.count := by
  have hinv : ((newLimiter size L).runAllowN calls).Inv :=
    runAllowN_inv hs ⟨hL, le_rfl, hL, le_rfl, dvd_zero _⟩ hn
  have hlim : ((newLimiter size L).runAllowN calls).limit = L :=
    runAllowN_limit (newLimiter size L) calls
  obtain ⟨h1, h2, h3, h4, h5⟩ := hinv
  exact ⟨h2, by omega, h4⟩

/-- C1 (single-process scenario): with size 1s and limit 10, from the fresh
state with window boundary `t0`, the seven `AllowN` calls of the scenario
return exactly `true, true, true, false, true, false, true`.  Times are in
nanoseconds: `t0` is any non-negative boundary on the 1-second grid. -/
theorem single_process_scenario (t0 : ℤ) (h0 : 0 ≤ t0) (hdvd : (10^9 : ℤ) ∣ t0) :
    (newLimiter (10^9) 10).allowList
      [(t0, 1), (t0 + 10^8, 2), (t0 + 2 * 10^8, 3), (t0 + 5 * 10^8, 5),
       (t0 + 10 * 10^8, 2), (t0 + 12 * 10^8, 5), (t0 + 15 * 10^8, 5)]
    = [true, true, true, false, true, false, true] := by
  have hbase : scenarioBase.allowList scenarioOffsets
      = [true, true, true, false, true, false, true] := by decide
  rcases eq_or_lt_of_le h0 with h00 | hpos
  · rw [← h00]
    decide
  · have h9 : (10^9 : ℤ) ≤ t0 := by omega
    have htr : truncate t0 (10^9) = t0 := truncate_of_dvd (by norm_num) hdvd
    have hfresh : (newLimiter (10^9) 10).advance t0 = scenarioBase.shift t0 := by
      rw [advance_eq_roll (newLimiter (10^9) 10) t0 (by norm_num [newLimiter])
        (by
          show (0:ℤ) + 10^9 ≤ truncate t0 (10^9)
          rw [htr]
          omega)]
      simp only [newLimiter, scenarioBase, Limiter.shift, Limiter.mk.injEq,
        Window.mk.injEq, ite_self, and_true, true_and]
      rw [htr]
      omega
    have hstep : (newLimiter (10^9) 10).allowN t0 1 = (scenarioBase.shift t0).allowN t0 1 := by
      rw [← allowN_advance (newLimiter (10^9) 10) t0 1, hfresh]
    have hmap : ([(t0, 1), (t0 + 10^8, 2), (t0 + 2 * 10^8, 3), (t0 + 5 * 10^8, 5),
        (t0 + 10 * 10^8, 2), (t0 + 12 * 10^8, 5), (t0 + 15 * 10^8, 5)] : List (ℤ × ℤ))
        = scenarioOffsets.map (fun p => (p.1 + t0, p.2)) := by
      simp only [scenarioOffsets, List.map_cons, List.map_nil, List.cons.injEq,
        Prod.mk.injEq, and_true, true_and]
      omega
    calc (newLimiter (10^9) 10).allowList
          [(t0, 1), (t0 + 10^8, 2), (t0 + 2 * 10^8, 3), (t0 + 5 * 10^8, 5),
           (t0 + 10 * 10^8, 2), (t0 + 12 * 10^8, 5), (t0 + 15 * 10^8, 5)]
        = (scenarioBase.shift t0).allowList
          [(t0, 1), (t0 + 10^8, 2), (t0 + 2 * 10^8, 3), (t0 + 5 * 10^8, 5),
           (t0 + 10 * 10^8, 2), (t0 + 12 * 10^8, 5), (t0 + 15 * 10^8, 5)] :=
          allowList_congr_head _ _ t0 1 _ hstep
      _ = (scenarioBase.shift t0).allowList
            (scenarioOffsets.map (fun p => (p.1 + t0, p.2))) := by rw [← hmap]
      _ = scenarioBase.allowList scenarioOffsets :=
          allowList_shift scenarioBase scenarioOffsets t0 hdvd
      _ = [true, true, true, false, true, false, true] := hbase

/-- Witness for C1 at a concrete boundary. -/
theorem single_process_scenario_w :
    (newLimiter (10^9) 10).allowList
      [(3 * 10^9, 1), (3 * 10^9 + 10^8, 2), (3 * 10^9 + 2 * 10^8, 3), (3 * 10^9 + 5 * 10^8, 5),
       (3 * 10^9 + 10 * 10^8, 2), (3 * 10^9 + 12 * 10^8, 5), (3 * 10^9 + 15 * 10^8, 5)]
    = [true, true, true, false, true, false, true] :=
  single_process_scenario (3 * 10^9) (by norm_num) ⟨3, by norm_num⟩

/-- Witness for C10 at a concrete input. -/
theorem local_counts_bounded_w :
    0 ≤ ((newLimiter (10^9) 10).runAllowN [(0, 3), (5 * 10^8, 4)]).curr.count ∧
    ((newLimiter (10^9) 10).runAllowN [(0, 3), (5 * 10^8, 4)]).curr.count ≤ 10 ∧
    0 ≤ ((newLimiter (10^9) 10).runAllowN [(0, 3), (5 * 10^8, 4)]).prev.count :=
  local_counts_bounded (10^9) 10 [(0, 3), (5 * 10^8, 4)] (by norm_num) (by norm_num)
    (by
      intro p hp
      simp only [List.mem_cons, List.not_mem_nil, or_false] at hp
      rcases hp with rfl | rfl <;> norm_num)

end SlidingWindow
